import Mathlib

/-!
Verification of the hierarchical compound composition and connectivity engine
specified for the mBuild tutorial repository.  The repository's notebook only
exercises the engine (subclassing the base container, loading structure files);
the engine itself is not part of the repository's sources, so every definition
below is modelled from the specification's words (§2–§4, §7 of the spec) and is
marked accordingly.  The notebook's CH2 construction and the loader scenarios
are reproduced concretely on this model.
-/

/-- Modelled from the spec: a 3-D position with real-valued coordinates
(represented over ℚ for an exact, decidable embedding). -/
structure Vec3 where
  x : ℚ
  y : ℚ
  z : ℚ
deriving DecidableEq, Repr

/-- Component-wise difference of two vectors. -/
def Vec3.sub (a b : Vec3) : Vec3 := ⟨a.x - b.x, a.y - b.y, a.z - b.z⟩

/-- The zero translation. -/
def zeroVec : Vec3 := ⟨0, 0, 0⟩

/-- Modelled from the spec: a rotation, given as a 3×3 matrix acting on
positions (§4.3 "rotation * position + translation"). -/
structure Rot where
  r11 : ℚ
  r12 : ℚ
  r13 : ℚ
  r21 : ℚ
  r22 : ℚ
  r23 : ℚ
  r31 : ℚ
  r32 : ℚ
  r33 : ℚ
deriving DecidableEq, Repr

/-- Matrix–vector action of a rotation. -/
def Rot.apply (r : Rot) (v : Vec3) : Vec3 :=
  ⟨r.r11 * v.x + r.r12 * v.y + r.r13 * v.z,
   r.r21 * v.x + r.r22 * v.y + r.r23 * v.z,
   r.r31 * v.x + r.r32 * v.y + r.r33 * v.z⟩

/-- The identity rotation. -/
def idRot : Rot := ⟨1, 0, 0, 0, 1, 0, 0, 0, 1⟩

/-- A rigid transform of a position: `rotation * position + translation`
(§4.3). -/
def transformPos (r : Rot) (v : Vec3) (p : Vec3) : Vec3 :=
  ⟨(r.apply p).x + v.x, (r.apply p).y + v.y, (r.apply p).z + v.z⟩

/-- Modelled from the spec (§3, §9): a tree node is a tagged variant —
a Particle (identity, label, position), a Port (identity, designated anchor
Particle, position, outward orientation vector), or a nested compound with an
ordered sequence of owned child nodes.  Positions are `Option`-valued so that
the "undefined position" failure mode of the Transform Engine (§4.3) is
representable; all ordinary construction paths produce `some`. -/
inductive Node where
  | particle (id : Nat) (label : String) (pos : Option Vec3)
  | port (id : Nat) (anchor : Nat) (pos : Option Vec3) (dir : Option Vec3)
  | comp (label : String) (children : List Node)
deriving Repr

/-- Modelled from the spec (§7): the error taxonomy of the engine. -/
inductive TreeError where
  | OwnershipError
  | CycleError
  | UnknownParticleError
  | DuplicateBondError
  | SelfBondError
  | PortAlreadyUsedError
  | DisjointTreeError
  | MalformedSubtreeError
  | MalformedStructureError
deriving DecidableEq, Repr

mutual
/-- Modelled from the spec (§4.1 `particles()`): the descendant Particles of a
node in deterministic depth-first, insertion order, as
(identity, label, position) triples. -/
def particlesNode : Node → List (Nat × String × Option Vec3)
  | .particle i l p => [(i, l, p)]
  | .port _ _ _ _ => []
  | .comp _ cs => particlesList cs

/-- Depth-first particle traversal of a child list, in insertion order. -/
def particlesList : List Node → List (Nat × String × Option Vec3)
  | [] => []
  | n :: ns => particlesNode n ++ particlesList ns
end

mutual
/-- The particle identities of a node, in traversal order. -/
def pidsNode : Node → List Nat
  | .particle i _ _ => [i]
  | .port _ _ _ _ => []
  | .comp _ cs => pidsList cs

/-- The particle identities of a child list, in traversal order. -/
def pidsList : List Node → List Nat
  | [] => []
  | n :: ns => pidsNode n ++ pidsList ns
end

/-- Modelled from the spec (§3, §9 open question resolved there): the
CompoundTree root — a label, the ordered owned children, the Bond set indexed
at the tree root (each Bond an identity pair over descendant Particles), and
the record of already-consumed Port identities (§3 Port lifecycle: a used Port
is removed from the tree but stays known as consumed). -/
structure CompoundTree where
  label : String
  children : List Node
  bonds : List (Nat × Nat)
  consumed : List Nat
deriving Repr

/-- Modelled from the spec (§4.1): `particles()`, the lazy depth-first
insertion-order sequence of all descendant Particles. -/
def CompoundTree.particles (t : CompoundTree) : List (Nat × String × Option Vec3) :=
  particlesList t.children

/-- The particle identities of the whole tree, in `particles()` order. -/
def CompoundTree.pids (t : CompoundTree) : List Nat := pidsList t.children

/-- Modelled from the spec (§4.1): `bonds()`, the deduplicated sequence of all
Bonds of the tree (stored once, at the root, per §9). -/
def CompoundTree.bondSeq (t : CompoundTree) : List (Nat × Nat) := t.bonds

/-- The empty CompoundTree node (created empty, §3 lifecycle). -/
def emptyTree : CompoundTree := ⟨"Compound", [], [], []⟩

mutual
/-- Port lookup: the (anchor, position, orientation) of the Port with the given
identity inside a node, if present (§4.2: a Port exposes position and
direction, and designates exactly one anchor Particle). -/
def findPortNode (p : Nat) : Node → Option (Nat × Option Vec3 × Option Vec3)
  | .particle _ _ _ => none
  | .port i a pos dir => if i = p then some (a, pos, dir) else none
  | .comp _ cs => findPortList p cs

/-- Port lookup over a child list, first match wins. -/
def findPortList (p : Nat) : List Node → Option (Nat × Option Vec3 × Option Vec3)
  | [] => none
  | n :: ns =>
    match findPortNode p n with
    | some r => some r
    | none => findPortList p ns
end

mutual
/-- Removal of the two consumed Ports after a connection (§3: a used Port is
removed from both participating trees).  Returns `none` when the node itself is
one of the removed Ports. -/
def removePortNode (a b : Nat) : Node → Option Node
  | .particle i l p => some (.particle i l p)
  | .port i anc pos dir => if i = a ∨ i = b then none else some (.port i anc pos dir)
  | .comp l cs => some (.comp l (removePortList a b cs))

/-- Removal of the two consumed Ports throughout a child list. -/
def removePortList (a b : Nat) : List Node → List Node
  | [] => []
  | n :: ns =>
    match removePortNode a b n with
    | some n' => n' :: removePortList a b ns
    | none => removePortList a b ns
end

mutual
/-- Modelled from the spec (§4.3): the Transform Engine's per-node pass.
Recomputes every descendant Particle and Port position as
`rotation * position + translation`; orientation vectors on Ports are rotated
but not translated.  Produces `none` as soon as any descendant position (or
Port orientation) is undefined — the `MalformedSubtreeError` case. -/
def tryMapNode (r : Rot) (v : Vec3) : Node → Option Node
  | .particle i l pos =>
    match pos with
    | some p => some (.particle i l (some (transformPos r v p)))
    | none => none
  | .port i a pos dir =>
    match pos, dir with
    | some p, some d => some (.port i a (some (transformPos r v p)) (some (r.apply d)))
    | _, _ => none
  | .comp l cs => (tryMapList r v cs).map (fun cs' => .comp l cs')

/-- Transform Engine pass over a child list; all-or-nothing. -/
def tryMapList (r : Rot) (v : Vec3) : List Node → Option (List Node)
  | [] => some []
  | n :: ns =>
    match tryMapNode r v n, tryMapList r v ns with
    | some n', some ns' => some (n' :: ns')
    | _, _ => none
end

mutual
/-- Whether every descendant position (and Port orientation) of a node is
defined. -/
def definedNode : Node → Bool
  | .particle _ _ pos => pos.isSome
  | .port _ _ pos dir => pos.isSome && dir.isSome
  | .comp _ cs => definedList cs

/-- Whether every descendant position in a child list is defined. -/
def definedList : List Node → Bool
  | [] => true
  | n :: ns => definedNode n && definedList ns
end

/-- Modelled from the spec (§4.3): `apply(node, rotation, translation)` with
all-or-nothing semantics — the full new coordinate set is computed first and
committed only if every descendant position is defined; otherwise the tree is
returned unchanged together with `MalformedSubtreeError`. -/
def applyT (r : Rot) (v : Vec3) (t : CompoundTree) : CompoundTree × Option TreeError :=
  match tryMapList r v t.children with
  | some cs => ({ t with children := cs }, none)
  | none => (t, some .MalformedSubtreeError)

/-- Modelled from the spec (§4.1 `add`): attaches a node as a new child, in the
parent's existing coordinate frame.  Particle identities are unique within one
tree and this is enforced at insertion time (§3): an identity already owned by
the tree (or duplicated inside the added node) means the node is already owned
elsewhere, which is the `OwnershipError` case of the contract. -/
def CompoundTree.add (t : CompoundTree) (n : Node) : Except TreeError CompoundTree :=
  if (pidsList t.children ++ pidsNode n).Nodup then
    .ok { t with children := t.children ++ [n] }
  else .error .OwnershipError

/-- Modelled from the source's usage (`self.add([carbon, hydrogen, hydrogen2])`
in the CH2 class) and the spec's `add` contract: the add operation applied to a
sequence of nodes attaches each element in the order given, by performing one
single-node `add` per element. -/
def addMany (t : CompoundTree) : List Node → Except TreeError CompoundTree
  | [] => .ok t
  | n :: ns =>
    match t.add n with
    | .ok t' => addMany t' ns
    | .error e => .error e

/-- Whether the unordered identity pair {a, b} already has a Bond in the tree. -/
def CompoundTree.bonded (t : CompoundTree) (a b : Nat) : Prop :=
  (a, b) ∈ t.bonds ∨ (b, a) ∈ t.bonds

instance (t : CompoundTree) (a b : Nat) : Decidable (t.bonded a b) := by
  unfold CompoundTree.bonded; infer_instance

/-- Modelled from the spec (§4.1 `add_bond`): inserts a Bond.  Fails with
`SelfBondError` if the two references are identical, `UnknownParticleError` if
either particle is not a descendant, `DuplicateBondError` if the unordered pair
already exists. -/
def CompoundTree.add_bond (t : CompoundTree) (a b : Nat) : Except TreeError CompoundTree :=
  if a = b then .error .SelfBondError
  else if a ∈ pidsList t.children ∧ b ∈ pidsList t.children then
    if t.bonded a b then .error .DuplicateBondError
    else .ok { t with bonds := t.bonds ++ [(a, b)] }
  else .error .UnknownParticleError

/-- Detaches the i-th child from a child list, returning the detached node and
the remaining list. -/
def removeChildAux : List Node → Nat → Option (Node × List Node)
  | [], _ => none
  | n :: ns, 0 => some (n, ns)
  | n :: ns, i + 1 => (removeChildAux ns i).map (fun r => (r.1, n :: r.2))

/-- Whether a Bond touches one of the given particle identities. -/
def bondTouches (rids : List Nat) (b : Nat × Nat) : Bool :=
  decide (b.1 ∈ rids) || decide (b.2 ∈ rids)

/-- Modelled from the spec (§4.1 `remove`): detaches the i-th child (and its
subtree), cascading removal of any Bond touching a removed Particle, and
returns the severed Bond set so callers may react. -/
def CompoundTree.remove (t : CompoundTree) (i : Nat) :
    Except TreeError (CompoundTree × List (Nat × Nat)) :=
  match removeChildAux t.children i with
  | none => .error .UnknownParticleError
  | some cr =>
    .ok ({ t with children := cr.2,
                  bonds := t.bonds.filter (fun b => !bondTouches (pidsNode cr.1) b) },
         t.bonds.filter (fun b => bondTouches (pidsNode cr.1) b))

/-- The child that `remove i` would detach, used by the bookkeeping observer
that counts removed Particle nodes. -/
def removedChild (t : CompoundTree) (i : Nat) : Option Node :=
  (removeChildAux t.children i).map (fun r => r.1)

/-- Rigidly moves the root child owning the given Port by the given
translation, through the Transform Engine (§4.2: the alignment transform is
applied to the entirety of the subtree owning portA; the rotational part of
the alignment is modelled as the identity, the translational part maps portA's
position onto portB's). -/
def moveSubtree (d : Vec3) (p : Nat) : List Node → Option (List Node)
  | [] => some []
  | n :: ns =>
    if (findPortNode p n).isSome then
      match tryMapNode idRot d n with
      | some n' => (moveSubtree d p ns).map (fun ns' => n' :: ns')
      | none => none
    else (moveSubtree d p ns).map (fun ns' => n :: ns')

/-- Modelled from the spec (§4.2 `connect`): aligns the subtree owning portA
with portB through the Transform Engine, removes both Ports (consumed), adds a
Bond between the two anchor Particles, and records both Port identities as
consumed.  Fails with `PortAlreadyUsedError` if either port is already
consumed, `DisjointTreeError` if both sides name the same port (a fusion of a
tree with itself at one port would be a cycle, not a fusion),
`UnknownParticleError` if a port or an anchor Particle cannot be found, and
`MalformedSubtreeError` if a needed position is undefined. -/
def CompoundTree.connect (t : CompoundTree) (pA pB : Nat) : Except TreeError CompoundTree :=
  if pA ∈ t.consumed ∨ pB ∈ t.consumed then .error .PortAlreadyUsedError
  else
    match findPortList pA t.children, findPortList pB t.children with
    | some ra, some rb =>
      if pA = pB then .error .DisjointTreeError
      else
        match ra.2.1, rb.2.1 with
        | some pa, some pb =>
          if ra.1 ∈ pidsList t.children ∧ rb.1 ∈ pidsList t.children then
            match moveSubtree (Vec3.sub pb pa) pA t.children with
            | some cs =>
              .ok { t with children := removePortList pA pB cs,
                           bonds := t.bonds ++ [(ra.1, rb.1)],
                           consumed := t.consumed ++ [pA, pB] }
            | none => .error .MalformedSubtreeError
          else .error .UnknownParticleError
        | _, _ => .error .MalformedSubtreeError
    | _, _ => .error .UnknownParticleError

/-- Modelled from the spec (§6): an atom record of the normalized structure-file
record shape — a label and a position. -/
structure AtomRec where
  label : String
  pos : Vec3
deriving DecidableEq, Repr

/-- Modelled from the spec (§6): a bond record referencing two atom-record
positions by index. -/
structure BondRec where
  indexA : Nat
  indexB : Nat
deriving DecidableEq, Repr

/-- One Particle per atom record, preserving file order as insertion order
(§4.4); identities are the atom-record indices, counted from `i`. -/
def mkAtoms (i : Nat) : List AtomRec → List Node
  | [] => []
  | a :: as => .particle i a.label (some a.pos) :: mkAtoms (i + 1) as

/-- Modelled from the spec (§4.4): Bond creation phase of the Loader — one Bond
per declared bond record, validated per §4.1's add_bond rules, with
`MalformedStructureError` when a record references an atom index out of range
or duplicates an earlier bond. -/
def loadBonds (n : Nat) (t : CompoundTree) : List BondRec → Except TreeError CompoundTree
  | [] => .ok t
  | b :: bs =>
    if n ≤ b.indexA ∨ n ≤ b.indexB then .error .MalformedStructureError
    else if b.indexA = b.indexB then .error .SelfBondError
    else if t.bonded b.indexA b.indexB then .error .MalformedStructureError
    else loadBonds n { t with bonds := t.bonds ++ [(b.indexA, b.indexB)] } bs

/-- Modelled from the spec (§4.4): the Loader populates a fresh CompoundTree
with one Particle per atom record (file order preserved) and one Bond per
declared bond record; it never infers bonds from geometry. -/
def load (atoms : List AtomRec) (bonds : List BondRec) : Except TreeError CompoundTree :=
  loadBonds atoms.length ⟨"Compound", mkAtoms 0 atoms, [], []⟩ bonds

/-- Index of an identity in an identity list (its position in `particles()`
order), used to serialize Bonds back to the record shape. -/
def posIn : List Nat → Nat → Nat
  | [], _ => 0
  | x :: xs, i => if x = i then 0 else posIn xs i + 1

/-- Modelled from the spec (§6): the inverse of the Loader contract — serialize
the particle sequence back to atom records. -/
def exportAtoms (t : CompoundTree) : List AtomRec :=
  t.particles.map (fun p => ⟨p.2.1, p.2.2.getD zeroVec⟩)

/-- Modelled from the spec (§6): serialize the Bond set back to index-based
bond records. -/
def exportBonds (t : CompoundTree) : List BondRec :=
  t.bonds.map (fun b => ⟨posIn t.pids b.1, posIn t.pids b.2⟩)

/-- Modelled from the spec (§6): the full export of a tree to the normalized
structure-file record shape. -/
def exportTree (t : CompoundTree) : List AtomRec × List BondRec :=
  (exportAtoms t, exportBonds t)

/-- The public mutating operations of the engine (§3 lifecycle: trees are
mutated only through add / remove / bond / connect / transform). -/
inductive Op where
  | add (n : Node)
  | remove (i : Nat)
  | addBond (a b : Nat)
  | connect (pA pB : Nat)
  | applyRT (r : Rot) (v : Vec3)

/-- One public operation applied to a tree.  A failed operation leaves the tree
unchanged (§7: no operation partially mutates the tree before failing).  The
two numeric outputs are the bookkeeping observer: how many Particle nodes the
operation added and how many it removed. -/
def step (t : CompoundTree) : Op → CompoundTree × Nat × Nat
  | .add n =>
    match t.add n with
    | .ok t' => (t', (pidsNode n).length, 0)
    | .error _ => (t, 0, 0)
  | .remove i =>
    match t.remove i, removedChild t i with
    | .ok r, some c => (r.1, 0, (pidsNode c).length)
    | _, _ => (t, 0, 0)
  | .addBond a b =>
    match t.add_bond a b with
    | .ok t' => (t', 0, 0)
    | .error _ => (t, 0, 0)
  | .connect pA pB =>
    match t.connect pA pB with
    | .ok t' => (t', 0, 0)
    | .error _ => (t, 0, 0)
  | .applyRT r v => ((applyT r v t).1, 0, 0)

/-- A sequence of public operations applied to a tree, together with the total
numbers of Particle nodes added and removed. -/
def exec (t : CompoundTree) : List Op → CompoundTree × Nat × Nat
  | [] => (t, 0, 0)
  | op :: ops =>
    let s := step t op
    let r := exec s.1 ops
    (r.1, s.2.1 + r.2.1, s.2.2 + r.2.2)

/-- The structural well-formedness invariant of a tree: no duplicate particle
identities, and every Bond references only identities present among the
descendant Particles (§3 invariants). -/
def WF (t : CompoundTree) : Prop :=
  t.pids.Nodup ∧ ∀ b ∈ t.bonds, b.1 ∈ t.pids ∧ b.2 ∈ t.pids

-- The notebook's CH2 unit (mBuild tutorial 02, cell 4): a carbon at the
-- origin, two hydrogens at ±0.1 on x, added in one list call, then the two
-- C–H bonds.
/-- The carbon particle of the CH2 unit. -/
def carbonN : Node := .particle 0 "C" (some ⟨0, 0, 0⟩)

/-- The first hydrogen of the CH2 unit, at +0.1 on x. -/
def hydrogenN : Node := .particle 1 "H" (some ⟨1/10, 0, 0⟩)

/-- The second hydrogen of the CH2 unit, at −0.1 on x. -/
def hydrogen2N : Node := .particle 2 "H" (some ⟨-(1/10), 0, 0⟩)

/-- The CH2 construction exactly as in the notebook's CH2 class: start from an
empty Compound, add the three particles in one list call, then add the two
C–H bonds. -/
def mkCH2 : Except TreeError CompoundTree := do
  let t ← addMany emptyTree [carbonN, hydrogenN, hydrogen2N]
  let t ← t.add_bond 0 1
  let t ← t.add_bond 0 2
  pure t

/-- The tree value the CH2 construction produces. -/
def ch2Tree : CompoundTree :=
  ⟨"Compound", [carbonN, hydrogenN, hydrogen2N], [(0, 1), (0, 2)], []⟩

-- Concrete instances used to exercise the theorems below on closed inputs.

/-- A one-particle fragment with an open Port (anchor particle 0). -/
def fragA : Node :=
  .comp ("A") [.particle 0 "C" (some ⟨0, 0, 0⟩), .port 10 0 (some ⟨1, 0, 0⟩) (some ⟨1, 0, 0⟩)]

/-- A second one-particle fragment with an open Port (anchor particle 1). -/
def fragB : Node :=
  .comp ("B") [.particle 1 "N" (some ⟨2, 0, 0⟩), .port 11 1 (some ⟨1, 0, 0⟩) (some ⟨-1, 0, 0⟩)]

/-- A tree holding the two port-bearing fragments, before connection. -/
def tAB : CompoundTree := ⟨"root", [fragA, fragB], [], []⟩

/-- The tree after connecting ports 10 and 11: both Ports consumed and removed,
a new Bond between the two anchors. -/
def tAB' : CompoundTree :=
  ⟨"root",
   [.comp ("A") [.particle 0 "C" (some ⟨0, 0, 0⟩)],
    .comp ("B") [.particle 1 "N" (some ⟨2, 0, 0⟩)]],
   [(0, 1)], [10, 11]⟩

/-- A malformed tree: a Particle with an undefined position. -/
def badTree : CompoundTree := ⟨"broken", [.particle 0 "X" none], [], []⟩

/-- Atom records of a two-atom structure file. -/
def atomsW : List AtomRec := [⟨"C", ⟨0, 0, 0⟩⟩, ⟨"H", ⟨1/10, 0, 0⟩⟩]

/-- The single declared bond record of that structure file. -/
def bondsW : List BondRec := [⟨0, 1⟩]

/-- The tree the Loader builds from `atomsW` and `bondsW`. -/
def loadedW : CompoundTree :=
  ⟨"Compound",
   [.particle 0 "C" (some ⟨0, 0, 0⟩), .particle 1 "H" (some ⟨1/10, 0, 0⟩)], [(0, 1)], []⟩

/-- Two spatially very close atoms (0.01 apart on x) with no bond record. -/
def atomsClose : List AtomRec := [⟨"C", ⟨0, 0, 0⟩⟩, ⟨"H", ⟨1/100, 0, 0⟩⟩]

/-- The tree the Loader builds from `atomsClose` with an empty bond list. -/
def loadedClose : CompoundTree :=
  ⟨"Compound",
   [.particle 0 "C" (some ⟨0, 0, 0⟩), .particle 1 "H" (some ⟨1/100, 0, 0⟩)], [], []⟩

/-- Particle 0 of the reachable-state scenario. -/
def p0W : Node := .particle 0 "C" (some ⟨0, 0, 0⟩)

/-- Particle 1 of the reachable-state scenario. -/
def p1W : Node := .particle 1 "H" (some ⟨0, 0, 0⟩)

/-- Particle 2 of the reachable-state scenario. -/
def p2W : Node := .particle 2 "O" (some ⟨0, 0, 0⟩)

/-- Particle 3 of the reachable-state scenario. -/
def p3W : Node := .particle 3 "N" (some ⟨0, 0, 0⟩)

/-- A public-operation trace: four particles added, two bonds inserted. -/
def opsW : List Op :=
  [.add p0W, .add p1W, .add p2W, .add p3W, .addBond 0 1, .addBond 2 3]

/-- The tree left after removing child 0 from the tree `opsW` reaches: the
bond (0,1) was severed with its endpoint, bond (2,3) survives. -/
def treeW' : CompoundTree := ⟨"Compound", [p1W, p2W, p3W], [(2, 3)], []⟩

-- Basic traversal lemmas.

theorem particlesList_append (as bs : List Node) :
    particlesList (as ++ bs) = particlesList as ++ particlesList bs := by
  induction as with
  | nil => rfl
  | cons a as ih =>
    simp only [List.cons_append, particlesList, List.append_eq, ih, List.append_assoc]

theorem particlesList_single (n : Node) : particlesList [n] = particlesNode n := by
  simp [particlesList]

theorem pidsList_append (as bs : List Node) :
    pidsList (as ++ bs) = pidsList as ++ pidsList bs := by
  induction as with
  | nil => rfl
  | cons a as ih =>
    simp only [List.cons_append, pidsList, List.append_eq, ih, List.append_assoc]

theorem pidsList_single (n : Node) : pidsList [n] = pidsNode n := by
  simp [pidsList]

mutual
/-- Particle identities are the first components of the particle traversal. -/
theorem pidsNode_eq_map (n : Node) :
    pidsNode n = (particlesNode n).map (fun p => p.1) := by
  cases n with
  | particle i l p => rfl
  | port i a p d => rfl
  | comp l cs =>
    show pidsList cs = (particlesList cs).map (fun p => p.1)
    exact pidsList_eq_map cs

theorem pidsList_eq_map (ns : List Node) :
    pidsList ns = (particlesList ns).map (fun p => p.1) := by
  cases ns with
  | nil => rfl
  | cons n ns =>
    show pidsNode n ++ pidsList ns = (particlesNode n ++ particlesList ns).map (fun p => p.1)
    rw [List.map_append, pidsNode_eq_map n, pidsList_eq_map ns]
end

-- The Transform Engine preserves particle identities.

mutual
theorem pidsNode_tryMap (r : Rot) (v : Vec3) (n : Node) :
    ∀ n', tryMapNode r v n = some n' → pidsNode n' = pidsNode n := by
  cases n with
  | particle i l pos =>
    intro n' h
    cases pos with
    | some p => simp only [tryMapNode, Option.some.injEq] at h; subst h; rfl
    | none => simp [tryMapNode] at h
  | port i a pos dir =>
    intro n' h
    cases pos with
    | some p =>
      cases dir with
      | some d => simp only [tryMapNode, Option.some.injEq] at h; subst h; rfl
      | none => simp [tryMapNode] at h
    | none => cases dir <;> simp [tryMapNode] at h
  | comp l cs =>
    intro n' h
    cases hcs : tryMapList r v cs with
    | none => rw [tryMapNode, hcs] at h; simp at h
    | some cs' =>
      rw [tryMapNode, hcs] at h
      simp only [Option.map_some', Option.some.injEq] at h
      subst h
      show pidsList cs' = pidsList cs
      exact pidsList_tryMap r v cs cs' hcs

theorem pidsList_tryMap (r : Rot) (v : Vec3) (ns : List Node) :
    ∀ ns', tryMapList r v ns = some ns' → pidsList ns' = pidsList ns := by
  cases ns with
  | nil => intro ns' h; simp only [tryMapList, Option.some.injEq] at h; subst h; rfl
  | cons n ns =>
    intro ns' h
    cases hn : tryMapNode r v n with
    | none => rw [tryMapList, hn] at h; simp at h
    | some n' =>
      cases hns : tryMapList r v ns with
      | none => rw [tryMapList, hn, hns] at h; simp at h
      | some ns'' =>
        rw [tryMapList, hn, hns] at h
        simp only [Option.some.injEq] at h
        subst h
        show pidsNode n' ++ pidsList ns'' = pidsNode n ++ pidsList ns
        rw [pidsNode_tryMap r v n n' hn, pidsList_tryMap r v ns ns'' hns]
end

-- Removing the two consumed Ports leaves the particle traversal unchanged.

mutual
theorem particles_removePortNode (a b : Nat) (n : Node) :
    (removePortNode a b n).elim [] particlesNode = particlesNode n := by
  cases n with
  | particle i l p => rfl
  | port i anc pos dir =>
    by_cases hi : i = a ∨ i = b <;> simp [removePortNode, hi, particlesNode]
  | comp l cs =>
    simp only [removePortNode, Option.elim]
    show particlesList (removePortList a b cs) = particlesList cs
    exact particles_removePortList a b cs

theorem particles_removePortList (a b : Nat) (ns : List Node) :
    particlesList (removePortList a b ns) = particlesList ns := by
  cases ns with
  | nil => rfl
  | cons n ns =>
    have hn := particles_removePortNode a b n
    cases h : removePortNode a b n with
    | none =>
      rw [h] at hn
      simp only [Option.elim] at hn
      simp only [removePortList, h, particlesList]
      rw [particles_removePortList a b ns, ← hn, List.nil_append]
    | some n' =>
      rw [h] at hn
      simp only [Option.elim] at hn
      simp only [removePortList, h, particlesList]
      rw [particles_removePortList a b ns, hn]
end

theorem pids_removePortList (a b : Nat) (ns : List Node) :
    pidsList (removePortList a b ns) = pidsList ns := by
  rw [pidsList_eq_map, pidsList_eq_map, particles_removePortList]

theorem moveSubtree_pids (d : Vec3) (p : Nat) (cs : List Node) :
    ∀ cs', moveSubtree d p cs = some cs' → pidsList cs' = pidsList cs := by
  induction cs with
  | nil => intro cs' h; simp only [moveSubtree, Option.some.injEq] at h; subst h; rfl
  | cons n ns ih =>
    intro cs' h
    rw [moveSubtree] at h
    by_cases hp : (findPortNode p n).isSome
    · rw [if_pos hp] at h
      cases hn : tryMapNode idRot d n with
      | none => rw [hn] at h; simp at h
      | some n' =>
        rw [hn] at h
        cases hns : moveSubtree d p ns with
        | none => rw [hns] at h; simp at h
        | some ns' =>
          rw [hns] at h
          simp only [Option.map_some', Option.some.injEq] at h
          subst h
          show pidsNode n' ++ pidsList ns' = pidsNode n ++ pidsList ns
          rw [pidsNode_tryMap idRot d n n' hn, ih ns' hns]
    · rw [if_neg hp] at h
      cases hns : moveSubtree d p ns with
      | none => rw [hns] at h; simp at h
      | some ns' =>
        rw [hns] at h
        simp only [Option.map_some', Option.some.injEq] at h
        subst h
        show pidsNode n ++ pidsList ns' = pidsNode n ++ pidsList ns
        rw [ih ns' hns]

theorem removeChildAux_spec (l : List Node) (i : Nat) :
    ∀ c rest, removeChildAux l i = some (c, rest) →
      ∃ pre post, l = pre ++ c :: post ∧ rest = pre ++ post := by
  induction l generalizing i with
  | nil => intro c rest h; simp [removeChildAux] at h
  | cons n ns ih =>
    intro c rest h
    cases i with
    | zero =>
      simp only [removeChildAux, Option.some.injEq, Prod.mk.injEq] at h
      exact ⟨[], ns, by simp [h.1], by simp [h.2]⟩
    | succ j =>
      simp only [removeChildAux] at h
      cases hr : removeChildAux ns j with
      | none => rw [hr] at h; simp at h
      | some r =>
        rw [hr] at h
        simp only [Option.map_some', Option.some.injEq, Prod.mk.injEq] at h
        obtain ⟨pre, post, hl, hrest⟩ := ih j r.1 r.2 (by rw [hr])
        refine ⟨n :: pre, post, ?_, ?_⟩
        · simp only [List.cons_append]
          rw [← h.1, hl]
        · simp only [List.cons_append]
          rw [← h.2, hrest]

-- Characterization of the successful branches of the public operations.

theorem add_ok (t : CompoundTree) (n : Node) (t' : CompoundTree)
    (h : t.add n = .ok t') :
    t' = { t with children := t.children ++ [n] } ∧
    (pidsList t.children ++ pidsNode n).Nodup := by
  unfold CompoundTree.add at h
  by_cases hc : (pidsList t.children ++ pidsNode n).Nodup
  · rw [if_pos hc] at h
    exact ⟨(Except.ok.inj h).symm, hc⟩
  · rw [if_neg hc] at h
    exact Except.noConfusion h

theorem add_pids (t : CompoundTree) (n : Node) (t' : CompoundTree)
    (h : t.add n = .ok t') : t'.pids = t.pids ++ pidsNode n := by
  obtain ⟨rfl, -⟩ := add_ok t n t' h
  show pidsList (t.children ++ [n]) = pidsList t.children ++ pidsNode n
  rw [pidsList_append, pidsList_single]

theorem add_bond_ok (t : CompoundTree) (a b : Nat) (t' : CompoundTree)
    (h : t.add_bond a b = .ok t') :
    t' = { t with bonds := t.bonds ++ [(a, b)] } ∧ a ≠ b ∧
    a ∈ pidsList t.children ∧ b ∈ pidsList t.children ∧ ¬ t.bonded a b := by
  unfold CompoundTree.add_bond at h
  by_cases hab : a = b
  · rw [if_pos hab] at h; exact Except.noConfusion h
  · rw [if_neg hab] at h
    by_cases hmem : a ∈ pidsList t.children ∧ b ∈ pidsList t.children
    · rw [if_pos hmem] at h
      by_cases hd : t.bonded a b
      · rw [if_pos hd] at h; exact Except.noConfusion h
      · rw [if_neg hd] at h
        exact ⟨(Except.ok.inj h).symm, hab, hmem.1, hmem.2, hd⟩
    · rw [if_neg hmem] at h; exact Except.noConfusion h

theorem remove_ok (t : CompoundTree) (i : Nat) (r : CompoundTree × List (Nat × Nat))
    (h : t.remove i = .ok r) :
    ∃ c pre post,
      removeChildAux t.children i = some (c, pre ++ post) ∧
      t.children = pre ++ c :: post ∧
      r.1 = { t with children := pre ++ post,
                     bonds := t.bonds.filter (fun b => !bondTouches (pidsNode c) b) } := by
  unfold CompoundTree.remove at h
  cases haux : removeChildAux t.children i with
  | none => rw [haux] at h; exact Except.noConfusion h
  | some cr =>
    obtain ⟨c, rest⟩ := cr
    rw [haux] at h
    obtain ⟨pre, post, hl, hrest⟩ := removeChildAux_spec t.children i c rest haux
    have hr := Except.ok.inj h
    refine ⟨c, pre, post, ?_, hl, ?_⟩
    · rw [hrest]
    · rw [← hr, hrest]

theorem connect_ok (t : CompoundTree) (pA pB : Nat) (t' : CompoundTree)
    (h : t.connect pA pB = .ok t') :
    t'.pids = t.pids ∧
    t'.consumed = t.consumed ++ [pA, pB] ∧
    ∃ x y, x ∈ t.pids ∧ y ∈ t.pids ∧ t'.bonds = t.bonds ++ [(x, y)] := by
  unfold CompoundTree.connect at h
  split at h <;> try exact Except.noConfusion h
  split at h <;> try exact Except.noConfusion h
  split at h <;> try exact Except.noConfusion h
  split at h <;> try exact Except.noConfusion h
  split at h <;> try exact Except.noConfusion h
  rename_i hanc
  split at h <;> try exact Except.noConfusion h
  rename_i cs hm
  have ht := Except.ok.inj h
  subst ht
  refine ⟨?_, rfl, _, _, hanc.1, hanc.2, rfl⟩
  show pidsList (removePortList pA pB cs) = pidsList t.children
  rw [pids_removePortList, moveSubtree_pids _ _ _ cs hm]

theorem applyT_fst_pids (r : Rot) (v : Vec3) (t : CompoundTree) :
    (applyT r v t).1.pids = t.pids := by
  unfold applyT
  cases hm : tryMapList r v t.children with
  | none => rfl
  | some cs =>
    show pidsList cs = pidsList t.children
    exact pidsList_tryMap r v t.children cs hm

theorem applyT_fst_bonds (r : Rot) (v : Vec3) (t : CompoundTree) :
    (applyT r v t).1.bonds = t.bonds := by
  unfold applyT
  cases hm : tryMapList r v t.children <;> rfl

-- Bond-cascade on removal: no kept bond touches the removed subtree.

theorem remove_cascades (t : CompoundTree) (i : Nat) (c : Node)
    (r : CompoundTree × List (Nat × Nat))
    (hc : removedChild t i = some c) (h : t.remove i = .ok r) :
    ∀ b ∈ r.1.bonds, b.1 ∉ pidsNode c ∧ b.2 ∉ pidsNode c := by
  intro b hbm
  obtain ⟨c', pre, post, haux, hl, hr1⟩ := remove_ok t i r h
  have hcc : c = c' := by
    unfold removedChild at hc
    rw [haux] at hc
    simpa using hc.symm
  subst hcc
  rw [hr1] at hbm
  have hbm' : b ∈ t.bonds.filter (fun b => !bondTouches (pidsNode c) b) := hbm
  rw [List.mem_filter] at hbm'
  have hcond := hbm'.2
  simp only [bondTouches, Bool.not_eq_true', Bool.or_eq_false_iff,
    decide_eq_false_iff_not] at hcond
  exact hcond

-- Every public operation preserves the structural invariant.

theorem step_WF (t : CompoundTree) (op : Op) (h : WF t) : WF (step t op).1 := by
  obtain ⟨hnd, hb⟩ := h
  cases op with
  | add n =>
    simp only [step]
    cases ha : t.add n with
    | error e => exact ⟨hnd, hb⟩
    | ok t' =>
      obtain ⟨rfl, hcheck⟩ := add_ok t n t' ha
      constructor
      · show (pidsList (t.children ++ [n])).Nodup
        rw [pidsList_append, pidsList_single]
        exact hcheck
      · intro b hbm
        have hold := hb b hbm
        constructor
        · show b.1 ∈ pidsList (t.children ++ [n])
          rw [pidsList_append]
          exact List.mem_append_left _ hold.1
        · show b.2 ∈ pidsList (t.children ++ [n])
          rw [pidsList_append]
          exact List.mem_append_left _ hold.2
  | remove i =>
    simp only [step]
    cases hrem : t.remove i with
    | error e =>
      cases hrc : removedChild t i <;> exact ⟨hnd, hb⟩
    | ok r =>
      cases hrc : removedChild t i with
      | none =>
        unfold removedChild at hrc
        unfold CompoundTree.remove at hrem
        cases haux : removeChildAux t.children i with
        | none => rw [haux] at hrem; exact Except.noConfusion hrem
        | some cr => rw [haux] at hrc; exact Option.noConfusion hrc
      | some c =>
        obtain ⟨c', pre, post, haux, hl, hr1⟩ := remove_ok t i r hrem
        have hcc : c = c' := by
          unfold removedChild at hrc
          rw [haux] at hrc
          simpa using hrc.symm
        subst hcc
        have hpids : (pidsList t.children) = pidsList pre ++ (pidsNode c ++ pidsList post) := by
          rw [hl, pidsList_append]
          simp [pidsList]
        have hpids' : r.1.pids = pidsList pre ++ pidsList post := by
          rw [hr1]
          show pidsList (pre ++ post) = pidsList pre ++ pidsList post
          exact pidsList_append pre post
        constructor
        · rw [hpids']
          have hsub : (pidsList pre ++ pidsList post).Sublist (pidsList t.children) := by
            rw [hpids]
            exact (List.sublist_append_right _ _).append_left _
          exact hnd.sublist hsub
        · intro b hbm
          have hnotouch := remove_cascades t i c r hrc hrem b hbm
          have hbmt : b ∈ t.bonds := by
            rw [hr1] at hbm
            exact (List.mem_filter.mp hbm).1
          have hold := hb b hbmt
          rw [hpids'] 
          have hmem1 : b.1 ∈ pidsList pre ++ (pidsNode c ++ pidsList post) := by
            rw [← hpids]; exact hold.1
          have hmem2 : b.2 ∈ pidsList pre ++ (pidsNode c ++ pidsList post) := by
            rw [← hpids]; exact hold.2
          constructor
          · rcases List.mem_append.mp hmem1 with h1 | h1
            · exact List.mem_append_left _ h1
            · rcases List.mem_append.mp h1 with h2 | h2
              · exact absurd h2 hnotouch.1
              · exact List.mem_append_right _ h2
          · rcases List.mem_append.mp hmem2 with h1 | h1
            · exact List.mem_append_left _ h1
            · rcases List.mem_append.mp h1 with h2 | h2
              · exact absurd h2 hnotouch.2
              · exact List.mem_append_right _ h2
  | addBond a b =>
    simp only [step]
    cases hab : t.add_bond a b with
    | error e => exact ⟨hnd, hb⟩
    | ok t' =>
      obtain ⟨rfl, hne, hma, hmb, hdup⟩ := add_bond_ok t a b t' hab
      refine ⟨hnd, ?_⟩
      intro b' hbm
      rcases List.mem_append.mp hbm with h1 | h1
      · exact hb b' h1
      · have : b' = (a, b) := by simpa using h1
        subst this
        exact ⟨hma, hmb⟩
  | connect pA pB =>
    simp only [step]
    cases hcn : t.connect pA pB with
    | error e => exact ⟨hnd, hb⟩
    | ok t' =>
      obtain ⟨hpids, hcons, x, y, hx, hy, hbonds⟩ := connect_ok t pA pB t' hcn
      constructor
      · rw [hpids]; exact hnd
      · intro b' hbm
        rw [hbonds] at hbm
        rcases List.mem_append.mp hbm with h1 | h1
        · have := hb b' h1
          rw [hpids]
          exact this
        · have : b' = (x, y) := by simpa using h1
          subst this
          rw [hpids]
          exact ⟨hx, hy⟩
  | applyRT r v =>
    constructor
    · show ((applyT r v t).1.pids).Nodup
      rw [applyT_fst_pids]
      exact hnd
    · intro b' hbm
      show b'.1 ∈ (applyT r v t).1.pids ∧ b'.2 ∈ (applyT r v t).1.pids
      rw [applyT_fst_pids]
      have hbm' : b' ∈ t.bonds := by
        have heq := applyT_fst_bonds r v t
        rw [show (step t (Op.applyRT r v)).1 = (applyT r v t).1 from rfl] at hbm
        rw [heq] at hbm
        exact hbm
      exact hb b' hbm'

-- Particle-count bookkeeping of a single operation.

theorem step_count (t : CompoundTree) (op : Op) :
    (step t op).1.pids.length + (step t op).2.2 = t.pids.length + (step t op).2.1 := by
  cases op with
  | add n =>
    simp only [step]
    cases ha : t.add n with
    | error e => rfl
    | ok t' =>
      have hp := add_pids t n t' ha
      show t'.pids.length + 0 = t.pids.length + (pidsNode n).length
      rw [hp, List.length_append]
      omega
  | remove i =>
    simp only [step]
    cases hrem : t.remove i with
    | error e => cases hrc : removedChild t i <;> rfl
    | ok r =>
      cases hrc : removedChild t i with
      | none =>
        unfold removedChild at hrc
        unfold CompoundTree.remove at hrem
        cases haux : removeChildAux t.children i with
        | none => rw [haux] at hrem
        | some cr => rw [haux] at hrc
      | some c =>
        obtain ⟨c', pre, post, haux, hl, hr1⟩ := remove_ok t i r hrem
        have hcc : c = c' := by
          unfold removedChild at hrc
          rw [haux] at hrc
          simpa using hrc.symm
        subst hcc
        show r.1.pids.length + (pidsNode c).length = t.pids.length + 0
        have hpids : (pidsList t.children) = pidsList pre ++ (pidsNode c ++ pidsList post) := by
          rw [hl, pidsList_append]
          simp [pidsList]
        have hpids' : r.1.pids = pidsList pre ++ pidsList post := by
          rw [hr1]
          show pidsList (pre ++ post) = pidsList pre ++ pidsList post
          exact pidsList_append pre post
        show r.1.pids.length + (pidsNode c).length = (pidsList t.children).length + 0
        rw [hpids', hpids]
        simp [List.length_append]
        omega
  | addBond a b =>
    simp only [step]
    cases hab : t.add_bond a b with
    | error e => rfl
    | ok t' =>
      obtain ⟨rfl, -⟩ := add_bond_ok t a b t' hab
      rfl
  | connect pA pB =>
    simp only [step]
    cases hcn : t.connect pA pB with
    | error e => rfl
    | ok t' =>
      obtain ⟨hpids, -⟩ := connect_ok t pA pB t' hcn
      show t'.pids.length + 0 = t.pids.length + 0
      rw [hpids]
  | applyRT r v =>
    show (applyT r v t).1.pids.length + 0 = t.pids.length + 0
    rw [applyT_fst_pids]

-- Reachable states: invariant preservation and the counting law.

theorem exec_WF (ops : List Op) : ∀ t : CompoundTree, WF t → WF (exec t ops).1 := by
  induction ops with
  | nil => intro t h; exact h
  | cons op ops ih => intro t h; exact ih _ (step_WF t op h)

theorem exec_count (ops : List Op) : ∀ t : CompoundTree,
    (exec t ops).1.pids.length + (exec t ops).2.2 =
      t.pids.length + (exec t ops).2.1 := by
  induction ops with
  | nil => intro t; rfl
  | cons op ops ih =>
    intro t
    have h1 := step_count t op
    have h2 := ih (step t op).1
    show (exec (step t op).1 ops).1.pids.length +
        ((step t op).2.2 + (exec (step t op).1 ops).2.2) =
      t.pids.length + ((step t op).2.1 + (exec (step t op).1 ops).2.1)
    omega

theorem emptyTree_WF : WF emptyTree := by
  constructor
  · exact List.nodup_nil
  · intro b hb
    exact absurd hb (List.not_mem_nil b)

-- Identity transform: positions are fixed points of rotation by the identity
-- and translation by zero.

theorem transformPos_id (p : Vec3) : transformPos idRot zeroVec p = p := by
  simp [transformPos, Rot.apply, idRot, zeroVec]

theorem rotApply_id (d : Vec3) : idRot.apply d = d := by
  simp [Rot.apply, idRot]

mutual
theorem tryMapNode_id (n : Node) :
    definedNode n = true → tryMapNode idRot zeroVec n = some n := by
  cases n with
  | particle i l pos =>
    intro h
    cases pos with
    | some p => simp [tryMapNode, transformPos_id]
    | none => simp [definedNode] at h
  | port i a pos dir =>
    intro h
    cases pos with
    | some p =>
      cases dir with
      | some d => simp [tryMapNode, transformPos_id, rotApply_id]
      | none => simp [definedNode] at h
    | none => simp [definedNode] at h
  | comp l cs =>
    intro h
    have hcs : definedList cs = true := h
    simp only [tryMapNode]
    rw [tryMapList_id cs hcs]
    rfl

theorem tryMapList_id (ns : List Node) :
    definedList ns = true → tryMapList idRot zeroVec ns = some ns := by
  cases ns with
  | nil => intro h; rfl
  | cons n ns =>
    intro h
    simp only [definedList, Bool.and_eq_true] at h
    simp only [tryMapList]
    rw [tryMapNode_id n h.1, tryMapList_id ns h.2]
end

-- The Loader: particle phase.

theorem posIn_mkAtoms (as : List AtomRec) : ∀ s j, j < as.length →
    posIn (pidsList (mkAtoms s as)) (s + j) = j := by
  induction as with
  | nil => intro s j h; exact absurd h (Nat.not_lt_zero j)
  | cons a as ih =>
    intro s j h
    show posIn (pidsNode (Node.particle s a.label (some a.pos)) ++ pidsList (mkAtoms (s + 1) as))
      (s + j) = j
    cases j with
    | zero => simp [pidsNode, posIn]
    | succ k =>
      show posIn (s :: pidsList (mkAtoms (s + 1) as)) (s + (k + 1)) = k + 1
      rw [posIn, if_neg (by omega)]
      have hk := ih (s + 1) k (by simpa using h)
      rw [show s + (k + 1) = s + 1 + k by omega, hk]

theorem exportAtoms_mkAtoms (as : List AtomRec) : ∀ s,
    (particlesList (mkAtoms s as)).map (fun p => AtomRec.mk p.2.1 (p.2.2.getD zeroVec)) = as := by
  induction as with
  | nil => intro s; rfl
  | cons a as ih =>
    intro s
    show (particlesNode (Node.particle s a.label (some a.pos)) ++
      particlesList (mkAtoms (s + 1) as)).map _ = a :: as
    simp only [particlesNode, List.singleton_append, List.map_cons]
    rw [ih (s + 1)]
    rfl

-- The Loader: bond phase.

theorem loadBonds_ok (bs : List BondRec) : ∀ (n : Nat) (t t' : CompoundTree),
    loadBonds n t bs = .ok t' →
    t'.label = t.label ∧ t'.children = t.children ∧ t'.consumed = t.consumed ∧
    t'.bonds = t.bonds ++ bs.map (fun b => (b.indexA, b.indexB)) ∧
    ∀ b ∈ bs, b.indexA < n ∧ b.indexB < n := by
  induction bs with
  | nil =>
    intro n t t' h
    have ht := Except.ok.inj h
    subst ht
    exact ⟨rfl, rfl, rfl, by simp, by intro b hb; exact absurd hb (List.not_mem_nil b)⟩
  | cons b bs ih =>
    intro n t t' h
    simp only [loadBonds] at h
    by_cases h1 : n ≤ b.indexA ∨ n ≤ b.indexB
    · rw [if_pos h1] at h; exact Except.noConfusion h
    · rw [if_neg h1] at h
      by_cases h2 : b.indexA = b.indexB
      · rw [if_pos h2] at h; exact Except.noConfusion h
      · rw [if_neg h2] at h
        by_cases h3 : t.bonded b.indexA b.indexB
        · rw [if_pos h3] at h; exact Except.noConfusion h
        · rw [if_neg h3] at h
          obtain ⟨hl, hc, hcons, hb, hrange⟩ := ih n _ t' h
          refine ⟨hl, hc, hcons, ?_, ?_⟩
          · rw [hb]
            show (t.bonds ++ [(b.indexA, b.indexB)]) ++ bs.map _ = t.bonds ++ _
            simp [List.append_assoc]
          · intro b' hb'
            rcases List.mem_cons.mp hb' with rfl | hmem
            · constructor <;> omega
            · exact hrange b' hmem

theorem load_ok (atoms : List AtomRec) (bonds : List BondRec) (t : CompoundTree)
    (h : load atoms bonds = .ok t) :
    t.label = "Compound" ∧ t.children = mkAtoms 0 atoms ∧ t.consumed = [] ∧
    t.bonds = bonds.map (fun b => (b.indexA, b.indexB)) ∧
    ∀ b ∈ bonds, b.indexA < atoms.length ∧ b.indexB < atoms.length := by
  unfold load at h
  obtain ⟨hl, hc, hcons, hb, hrange⟩ := loadBonds_ok bonds atoms.length _ t h
  exact ⟨hl, hc, hcons, by simpa using hb, hrange⟩

theorem exportTree_load (atoms : List AtomRec) (bonds : List BondRec) (t : CompoundTree)
    (h : load atoms bonds = .ok t) : exportTree t = (atoms, bonds) := by
  obtain ⟨hl, hc, hcons, hb, hrange⟩ := load_ok atoms bonds t h
  have hA : exportAtoms t = atoms := by
    unfold exportAtoms
    show (particlesList t.children).map _ = atoms
    rw [hc]
    exact exportAtoms_mkAtoms atoms 0
  have hB : exportBonds t = bonds := by
    unfold exportBonds
    rw [hb, List.map_map]
    have hcong : ∀ r ∈ bonds,
        ((fun b : Nat × Nat => BondRec.mk (posIn t.pids b.1) (posIn t.pids b.2)) ∘
          (fun b : BondRec => (b.indexA, b.indexB))) r = r := by
      intro r hr
      obtain ⟨h1, h2⟩ := hrange r hr
      have e1 : posIn t.pids r.indexA = r.indexA := by
        show posIn (pidsList t.children) r.indexA = r.indexA
        rw [hc]
        have := posIn_mkAtoms atoms 0 r.indexA h1
        rwa [Nat.zero_add] at this
      have e2 : posIn t.pids r.indexB = r.indexB := by
        show posIn (pidsList t.children) r.indexB = r.indexB
        rw [hc]
        have := posIn_mkAtoms atoms 0 r.indexB h2
        rwa [Nat.zero_add] at this
      simp only [Function.comp_apply]
      rw [e1, e2]
    rw [List.map_congr_left hcong, List.map_id']
  unfold exportTree
  rw [hA, hB]

-- Adding a sequence of nodes.

theorem addMany_foldl (l : List Node) : ∀ t : CompoundTree,
    addMany t l = List.foldlM CompoundTree.add t l := by
  induction l with
  | nil => intro t; rfl
  | cons n ns ih =>
    intro t
    simp only [addMany, List.foldlM_cons]
    cases ha : t.add n with
    | ok t' =>
      show addMany t' ns = Except.ok t' >>= fun t' => List.foldlM CompoundTree.add t' ns
      exact ih t'
    | error e => rfl

theorem addMany_ok (l : List Node) : ∀ t t' : CompoundTree, addMany t l = .ok t' →
    t'.children = t.children ++ l ∧ t'.bonds = t.bonds ∧ t'.consumed = t.consumed ∧
    t'.label = t.label := by
  induction l with
  | nil =>
    intro t t' h
    have ht := Except.ok.inj h
    subst ht
    exact ⟨by simp, rfl, rfl, rfl⟩
  | cons n ns ih =>
    intro t t' h
    simp only [addMany] at h
    cases ha : t.add n with
    | error e => rw [ha] at h; exact Except.noConfusion h
    | ok t1 =>
      rw [ha] at h
      obtain ⟨hc, hbn, hcons, hlb⟩ := ih t1 t' h
      obtain ⟨rfl, -⟩ := add_ok t n t1 ha
      refine ⟨?_, hbn, hcons, hlb⟩
      rw [hc]
      show (t.children ++ [n]) ++ ns = t.children ++ n :: ns
      simp

-- The claims.

/-- C1: constructing the CH2 unit (particle C at the origin, one H at +0.1 on
x, one H at −0.1 on x, with bonds C–H and C–H′) yields a tree whose particles()
produces exactly those 3 particles in insertion order and whose bonds()
produces exactly 2 bonds, each referencing C (identity 0) and one of the two H
particles (identities 1 and 2). -/
theorem ch2_unit_particles_and_bonds :
    mkCH2 = .ok ch2Tree ∧
    ch2Tree.particles =
      [(0, "C", some ⟨0, 0, 0⟩), (1, "H", some ⟨1/10, 0, 0⟩),
       (2, "H", some ⟨-(1/10), 0, 0⟩)] ∧
    ch2Tree.bonds = [(0, 1), (0, 2)] :=
  ⟨rfl, rfl, rfl⟩

/-- C2: for every tree reachable from the empty tree through the public
operations, particles() contains no duplicate particle identities, and its
length equals the number of Particle nodes added minus the number removed. -/
theorem particles_unique_and_counted (ops : List Op) :
    (((exec emptyTree ops).1.particles).map (fun p => p.1)).Nodup ∧
    (exec emptyTree ops).2.2 ≤ (exec emptyTree ops).2.1 ∧
    ((exec emptyTree ops).1.particles).length =
      (exec emptyTree ops).2.1 - (exec emptyTree ops).2.2 := by
  have hwf := exec_WF ops emptyTree emptyTree_WF
  have hcount := exec_count ops emptyTree
  have hmap : (exec emptyTree ops).1.pids =
      ((exec emptyTree ops).1.particles).map (fun p => p.1) := pidsList_eq_map _
  have hlen : (exec emptyTree ops).1.pids.length =
      ((exec emptyTree ops).1.particles).length := by
    rw [hmap, List.length_map]
  have h0 : emptyTree.pids.length = 0 := rfl
  refine ⟨?_, ?_, ?_⟩
  · rw [← hmap]; exact hwf.1
  · omega
  · omega

/-- C3: add_bond fails with SelfBondError when the two particle references are
identical, with UnknownParticleError when (the references being distinct)
either particle is not a descendant of the tree, with DuplicateBondError when
the unordered pair already has a bond; it inserts the bond otherwise. -/
theorem add_bond_error_taxonomy (t : CompoundTree) (a b : Nat) :
    (a = b → t.add_bond a b = .error .SelfBondError) ∧
    (a ≠ b → (a ∉ t.pids ∨ b ∉ t.pids) →
      t.add_bond a b = .error .UnknownParticleError) ∧
    (a ≠ b → a ∈ t.pids → b ∈ t.pids → t.bonded a b →
      t.add_bond a b = .error .DuplicateBondError) ∧
    (a ≠ b → a ∈ t.pids → b ∈ t.pids → ¬ t.bonded a b →
      t.add_bond a b = .ok { t with bonds := t.bonds ++ [(a, b)] }) := by
  refine ⟨?_, ?_, ?_, ?_⟩
  · intro hab
    unfold CompoundTree.add_bond
    rw [if_pos hab]
  · intro hab hnm
    have hc : ¬(a ∈ pidsList t.children ∧ b ∈ pidsList t.children) := by
      intro hc
      rcases hnm with h | h
      exacts [h hc.1, h hc.2]
    unfold CompoundTree.add_bond
    rw [if_neg hab, if_neg hc]
  · intro hab ha hb hd
    unfold CompoundTree.add_bond
    rw [if_neg hab, if_pos ⟨ha, hb⟩, if_pos hd]
  · intro hab ha hb hd
    unfold CompoundTree.add_bond
    rw [if_neg hab, if_pos ⟨ha, hb⟩, if_neg hd]

/-- Witness for C3 on the CH2 unit: a self bond on C fails with SelfBondError,
a bond to an unknown identity fails with UnknownParticleError, repeating the
C–H bond fails with DuplicateBondError, and the fresh H–H pair is inserted. -/
theorem add_bond_error_taxonomy_witness :
    ch2Tree.add_bond 0 0 = .error .SelfBondError ∧
    ch2Tree.add_bond 0 5 = .error .UnknownParticleError ∧
    ch2Tree.add_bond 0 1 = .error .DuplicateBondError ∧
    ch2Tree.add_bond 1 2 = .ok { ch2Tree with bonds := ch2Tree.bonds ++ [(1, 2)] } :=
  ⟨(add_bond_error_taxonomy ch2Tree 0 0).1 rfl,
   (add_bond_error_taxonomy ch2Tree 0 5).2.1 (by decide) (Or.inr (by decide)),
   (add_bond_error_taxonomy ch2Tree 0 1).2.2.1 (by decide) (by decide) (by decide)
     (by decide),
   (add_bond_error_taxonomy ch2Tree 1 2).2.2.2 (by decide) (by decide) (by decide)
     (by decide)⟩

/-- C4: in every state reachable through the public operations, both endpoints
of every bond are present in particles(); and removing a child node removes
every bond touching the removed subtree's particles, so no reachable state
exposes a bond referencing an absent particle. -/
theorem bonds_never_dangling (ops : List Op) :
    (∀ b ∈ (exec emptyTree ops).1.bonds,
        b.1 ∈ ((exec emptyTree ops).1.particles).map (fun p => p.1) ∧
        b.2 ∈ ((exec emptyTree ops).1.particles).map (fun p => p.1)) ∧
    (∀ (i : Nat) (c : Node) (r : CompoundTree × List (Nat × Nat)),
        removedChild (exec emptyTree ops).1 i = some c →
        (exec emptyTree ops).1.remove i = .ok r →
        ∀ b ∈ r.1.bonds, b.1 ∉ pidsNode c ∧ b.2 ∉ pidsNode c) := by
  have hwf := exec_WF ops emptyTree emptyTree_WF
  have hmap : (exec emptyTree ops).1.pids =
      ((exec emptyTree ops).1.particles).map (fun p => p.1) := pidsList_eq_map _
  constructor
  · intro b hb
    have hmem := hwf.2 b hb
    rw [← hmap]
    exact hmem
  · intro i c r hc hrem
    exact remove_cascades _ i c r hc hrem

/-- Witness for C4: after adding particles 0–3 and bonds (0,1) and (2,3), the
bond (2,3) has both endpoints among the particles; removing child 0 (particle
0) leaves only bonds not touching it. -/
theorem bonds_never_dangling_witness :
    (((2, 3) : Nat × Nat).1 ∈ ((exec emptyTree opsW).1.particles).map (fun p => p.1) ∧
     ((2, 3) : Nat × Nat).2 ∈ ((exec emptyTree opsW).1.particles).map (fun p => p.1)) ∧
    (((2, 3) : Nat × Nat).1 ∉ pidsNode p0W ∧ ((2, 3) : Nat × Nat).2 ∉ pidsNode p0W) :=
  ⟨(bonds_never_dangling opsW).1 (2, 3) (by decide),
   (bonds_never_dangling opsW).2 0 p0W (treeW', [(0, 1)]) rfl rfl (2, 3) (by decide)⟩

/-- C5: after a successful connect(portA, portB), calling connect on the same
port pair again fails with PortAlreadyUsedError (the first call consumed both
ports), and the failed second call does not mutate the tree. -/
theorem connect_second_call_fails (t t' : CompoundTree) (pA pB : Nat)
    (h : t.connect pA pB = .ok t') :
    t'.connect pA pB = .error .PortAlreadyUsedError ∧
    step t' (.connect pA pB) = (t', 0, 0) := by
  obtain ⟨-, hcons, -⟩ := connect_ok t pA pB t' h
  have hmem : pA ∈ t'.consumed := by
    rw [hcons]
    simp
  have herr : t'.connect pA pB = .error .PortAlreadyUsedError := by
    unfold CompoundTree.connect
    rw [if_pos (Or.inl hmem)]
  refine ⟨herr, ?_⟩
  simp only [step, herr]

/-- Witness for C5: connecting ports 10 and 11 of the two fragments succeeds
once; the second call fails with PortAlreadyUsedError and leaves the tree
unchanged. -/
theorem connect_second_call_fails_witness :
    tAB'.connect 10 11 = .error .PortAlreadyUsedError ∧
    step tAB' (.connect 10 11) = (tAB', 0, 0) :=
  connect_second_call_fails tAB tAB' 10 11 (by
    simp [CompoundTree.connect, tAB, tAB', fragA, fragB, findPortList, findPortNode,
          moveSubtree, tryMapNode, tryMapList, transformPos, Rot.apply, idRot, Vec3.sub,
          removePortList, removePortNode, pidsList, pidsNode, CompoundTree.bonded])

/-- C6: applying the Transform Engine with the identity rotation and zero
translation to a node whose descendant positions are all defined leaves every
descendant Particle and Port position unchanged (the tree is returned intact,
with no error). -/
theorem transform_identity_neutral (t : CompoundTree)
    (h : definedList t.children = true) :
    applyT idRot zeroVec t = (t, none) := by
  unfold applyT
  rw [tryMapList_id t.children h]

/-- Witness for C6: the identity transform returns the CH2 unit unchanged. -/
theorem transform_identity_neutral_witness :
    applyT idRot zeroVec ch2Tree = (ch2Tree, none) :=
  transform_identity_neutral ch2Tree rfl

/-- C7: the Transform Engine is all-or-nothing — whenever apply fails, the
error is MalformedSubtreeError (an undefined descendant position) and the tree
is left exactly as it was; no partially transformed state is observable. -/
theorem transform_all_or_nothing (r : Rot) (v : Vec3) (t : CompoundTree) (e : TreeError)
    (h : (applyT r v t).2 = some e) :
    (applyT r v t).1 = t ∧ e = .MalformedSubtreeError := by
  unfold applyT at h ⊢
  cases hm : tryMapList r v t.children with
  | none =>
    rw [hm] at h
    exact ⟨rfl, (Option.some.inj h).symm⟩
  | some cs =>
    rw [hm] at h
    exact Option.noConfusion h

/-- Witness for C7: on a tree holding a Particle with an undefined position the
transform fails and the tree is unchanged. -/
theorem transform_all_or_nothing_witness :
    (applyT idRot zeroVec badTree).1 = badTree ∧
    TreeError.MalformedSubtreeError = TreeError.MalformedSubtreeError :=
  transform_all_or_nothing idRot zeroVec badTree .MalformedSubtreeError rfl

/-- C8: for every tree built purely from Loader input, running the Loader on
the exported record shape reproduces the tree exactly — same particle labels
and positions in the same order and the same bond set. -/
theorem loader_roundtrip (atoms : List AtomRec) (bonds : List BondRec) (t : CompoundTree)
    (h : load atoms bonds = .ok t) :
    exportTree t = (atoms, bonds) ∧
    load (exportTree t).1 (exportTree t).2 = .ok t := by
  have hE := exportTree_load atoms bonds t h
  refine ⟨hE, ?_⟩
  rw [hE]
  exact h

/-- Witness for C8: the two-atom, one-bond structure file round-trips. -/
theorem loader_roundtrip_witness :
    exportTree loadedW = (atomsW, bondsW) ∧
    load (exportTree loadedW).1 (exportTree loadedW).2 = .ok loadedW :=
  loader_roundtrip atomsW bondsW loadedW rfl

/-- C9: the Loader creates a bond only for each explicitly declared bond
record — a pair of atoms with no bond record between them has no bond in the
loaded tree, regardless of how spatially close their positions are. -/
theorem loader_never_infers_bonds (atoms : List AtomRec) (bonds : List BondRec)
    (t : CompoundTree) (h : load atoms bonds = .ok t) (i j : Nat)
    (hno : ∀ r ∈ bonds, ¬(r.indexA = i ∧ r.indexB = j) ∧ ¬(r.indexA = j ∧ r.indexB = i)) :
    ¬ t.bonded i j := by
  obtain ⟨-, -, -, hb, -⟩ := load_ok atoms bonds t h
  intro hbond
  unfold CompoundTree.bonded at hbond
  rcases hbond with hm | hm
  · rw [hb, List.mem_map] at hm
    obtain ⟨r, hr, he⟩ := hm
    exact (hno r hr).1 ⟨congrArg Prod.fst he, congrArg Prod.snd he⟩
  · rw [hb, List.mem_map] at hm
    obtain ⟨r, hr, he⟩ := hm
    exact (hno r hr).2 ⟨congrArg Prod.fst he, congrArg Prod.snd he⟩

/-- Witness for C9: two atoms 0.01 apart with an empty bond list end up with no
bond between them. -/
theorem loader_never_infers_bonds_witness : ¬ loadedClose.bonded 0 1 :=
  loader_never_infers_bonds atomsClose [] loadedClose rfl 0 1
    (by intro r hr; exact absurd hr (List.not_mem_nil r))

/-- C10: the add operation applied to a sequence of child nodes attaches each
element as a child in the order given by the sequence, and is equivalent to
calling add once per element in that order. -/
theorem add_accepts_sequence (t : CompoundTree) (l : List Node) :
    addMany t l = List.foldlM CompoundTree.add t l ∧
    ∀ t', addMany t l = .ok t' →
      t'.children = t.children ++ l ∧ t'.bonds = t.bonds ∧ t'.consumed = t.consumed := by
  refine ⟨addMany_foldl l t, ?_⟩
  intro t' h
  obtain ⟨hc, hbn, hcons, -⟩ := addMany_ok l t t' h
  exact ⟨hc, hbn, hcons⟩

/-- Witness for C10: adding the CH2 particle list in one call appends the three
particles in order, exactly as iterated single adds would. -/
theorem add_accepts_sequence_witness :
    addMany emptyTree [carbonN, hydrogenN, hydrogen2N] =
      List.foldlM CompoundTree.add emptyTree [carbonN, hydrogenN, hydrogen2N] ∧
    (⟨"Compound", [carbonN, hydrogenN, hydrogen2N], [], []⟩ : CompoundTree).children =
      emptyTree.children ++ [carbonN, hydrogenN, hydrogen2N] :=
  ⟨(add_accepts_sequence emptyTree [carbonN, hydrogenN, hydrogen2N]).1,
   ((add_accepts_sequence emptyTree [carbonN, hydrogenN, hydrogen2N]).2
      ⟨"Compound", [carbonN, hydrogenN, hydrogen2N], [], []⟩ rfl).1⟩
